import Mathlib

/-!
# Verification of the two-layer ReLU network trainer (NN_with_numpy)

Shallow embedding of the notebook `src/Solutions/NN_with_numpy.ipynb`:
a fully-connected network `y_pred = relu(x · w1) · w2` trained by
full-batch gradient descent on total squared error for 500 iterations,
recording training and validation loss per iteration.

Real numbers are modelled as rationals (ℚ); `numpy` arrays of shape
(m, n) as `Matrix (Fin m) (Fin n) ℚ`.  Dimensions are kept as parameters
`n din hd dout` (the notebook fixes N = 64, D_in = 1000, H = 100,
D_out = 10, but the computations are dimension generic; the constants
are recorded below).
-/

namespace NN

/-- Constant `N = 64` — input batch size (notebook cell 1). -/
def N : ℕ := 64

/-- Constant `D_in = 1000` — input dimension (notebook cell 1). -/
def D_in : ℕ := 1000

/-- Constant `H = 100` — hidden layer dimension (notebook cell 1). -/
def Hdim : ℕ := 100

/-- Constant `D_out = 10` — output dimension (notebook cell 1). -/
def D_out : ℕ := 10

/-- Constant `learning_rate = 1e-6` (notebook cell 1). -/
def learning_rate : ℚ := 1 / 1000000

/-- Constant `niteration = 500` (notebook cell 7). -/
def niteration : ℕ := 500

/-- Matrices of rationals, indexed by concrete dimensions. -/
abbrev Mat (m n : ℕ) := Matrix (Fin m) (Fin n) ℚ

/-- Source `np.maximum(a, 0)` — elementwise ReLU (notebook cells 3 and 7). -/
def relu {m n : ℕ} (a : Mat m n) : Mat m n :=
  Matrix.of fun i j => max (a i j) 0

/-- Source `np.square(a).sum()` — sum of the squares of all entries
(notebook cells 4 and 7). -/
def sumSq {m n : ℕ} (a : Mat m n) : ℚ :=
  ∑ i, ∑ j, (a i j) ^ 2

/-- Source `h = x.dot(w1)` — hidden pre-activation (notebook cells 3 and 7). -/
def hPre {n din hd : ℕ} (x : Mat n din) (w1 : Mat din hd) : Mat n hd :=
  x * w1

/-- Source `y_pred = h_relu.dot(w2)` — forward pass output
(notebook cells 3 and 7). -/
def predict {n din hd dout : ℕ} (x : Mat n din) (w1 : Mat din hd)
    (w2 : Mat hd dout) : Mat n dout :=
  relu (hPre x w1) * w2

/-- Source `loss = np.square(y_pred - y).sum()` — total squared error
(notebook cells 4 and 7). -/
def lossOf {n din hd dout : ℕ} (x : Mat n din) (y : Mat n dout)
    (w1 : Mat din hd) (w2 : Mat hd dout) : ℚ :=
  sumSq (predict x w1 w2 - y)

/-- Source `grad_y_pred = 2.0 * (y_pred - y)` (notebook cells 5 and 7). -/
def grad_y_pred {n din hd dout : ℕ} (x : Mat n din) (y : Mat n dout)
    (w1 : Mat din hd) (w2 : Mat hd dout) : Mat n dout :=
  (2 : ℚ) • (predict x w1 w2 - y)

/-- Source `grad_w2 = h_relu.T.dot(grad_y_pred)` (notebook cells 5 and 7). -/
def grad_w2 {n din hd dout : ℕ} (x : Mat n din) (y : Mat n dout)
    (w1 : Mat din hd) (w2 : Mat hd dout) : Mat hd dout :=
  (relu (hPre x w1)).transpose * grad_y_pred x y w1 w2

/-- Source `grad_h_relu = grad_y_pred.dot(w2.T)` (notebook cells 5 and 7). -/
def grad_h_relu {n din hd dout : ℕ} (x : Mat n din) (y : Mat n dout)
    (w1 : Mat din hd) (w2 : Mat hd dout) : Mat n hd :=
  grad_y_pred x y w1 w2 * w2.transpose

/-- Source `grad_h = grad_h_relu.copy(); grad_h[h < 0] = 0` — the strictly
negative pre-activation entries are zeroed, all others (including
exact zeros) keep the value of `grad_h_relu` (notebook cells 5 and 7). -/
def grad_h {n din hd dout : ℕ} (x : Mat n din) (y : Mat n dout)
    (w1 : Mat din hd) (w2 : Mat hd dout) : Mat n hd :=
  Matrix.of fun i j =>
    if hPre x w1 i j < 0 then 0 else grad_h_relu x y w1 w2 i j

/-- Source `grad_w1 = x.T.dot(grad_h)` (notebook cells 5 and 7). -/
def grad_w1 {n din hd dout : ℕ} (x : Mat n din) (y : Mat n dout)
    (w1 : Mat din hd) (w2 : Mat hd dout) : Mat din hd :=
  x.transpose * grad_h x y w1 w2

/-- Source `w1 -= learning_rate * grad_w1` (notebook cells 6 and 7). -/
def updateW1 {n din hd dout : ℕ} (x : Mat n din) (y : Mat n dout)
    (w1 : Mat din hd) (w2 : Mat hd dout) : Mat din hd :=
  w1 - learning_rate • grad_w1 x y w1 w2

/-- Source `w2 -= learning_rate * grad_w2` (notebook cells 6 and 7). -/
def updateW2 {n din hd dout : ℕ} (x : Mat n din) (y : Mat n dout)
    (w1 : Mat din hd) (w2 : Mat hd dout) : Mat hd dout :=
  w2 - learning_rate • grad_w2 x y w1 w2

/-- The mutable program state at the top of the training loop of
notebook cell 7: the training data `x, y`, validation data
`x_val, y_val`, the weights `w1, w2`, and the recorded sequences
`cost`, `counter`, `cost_val`. -/
structure TrainState (n din hd dout : ℕ) where
  x : Mat n din
  y : Mat n dout
  x_val : Mat n din
  y_val : Mat n dout
  w1 : Mat din hd
  w2 : Mat hd dout
  cost : List ℚ
  cnt : List ℕ
  cost_val : List ℚ

/-- One iteration of the training loop (notebook cell 7, body of
`for t in range(niteration)`): forward pass and training loss on
`(x, w1, w2)`, append `loss` to `cost` and `t` to `counter`, forward
pass and validation loss on `(x_val, w1, w2)` with the same (not yet
updated) weights, append to `cost_val`, then backward pass on the
training data and the weight update. -/
def step {n din hd dout : ℕ} (t : ℕ) (s : TrainState n din hd dout) :
    TrainState n din hd dout :=
  { s with
    cost := s.cost ++ [lossOf s.x s.y s.w1 s.w2]
    cnt := s.cnt ++ [t]
    cost_val := s.cost_val ++ [lossOf s.x_val s.y_val s.w1 s.w2]
    w1 := updateW1 s.x s.y s.w1 s.w2
    w2 := updateW2 s.x s.y s.w1 s.w2 }

/-- Iteration `for t in range(k)` over the loop body: `run k s` is the state after
iterations `t = 0, 1, ..., k-1` have executed in order. -/
def run {n din hd dout : ℕ} : ℕ → TrainState n din hd dout →
    TrainState n din hd dout
  | 0, s => s
  | t + 1, s => step t (run t s)

/-- The state at the first entry of the training loop of cell 7.
Cells 3–6 of the notebook have already executed one full
forward/backward/update pass on the training data at this point, so
the weights are `updateW1/updateW2` of the random initialisation, not
the initialisation itself; the history lists start empty
(`cost=[]; counter=[]; cost_val=[]` in cell 7). -/
def startState {n din hd dout : ℕ} (x : Mat n din) (y : Mat n dout)
    (w1 : Mat din hd) (w2 : Mat hd dout)
    (x_val : Mat n din) (y_val : Mat n dout) : TrainState n din hd dout :=
  { x := x, y := y, x_val := x_val, y_val := y_val
    w1 := updateW1 x y w1 w2
    w2 := updateW2 x y w1 w2
    cost := [], cnt := [], cost_val := [] }

/-- The whole program after initialisation: the single demonstration
step of cells 3–6 followed by the 500-iteration loop of cell 7,
starting from the randomly initialised `x y w1 w2 x_val y_val`. -/
def program {n din hd dout : ℕ} (x : Mat n din) (y : Mat n dout)
    (w1 : Mat din hd) (w2 : Mat hd dout)
    (x_val : Mat n din) (y_val : Mat n dout) : TrainState n din hd dout :=
  run niteration (startState x y w1 w2 x_val y_val)

/-! ## Concrete 1×1 instances used to witness theorems with hypotheses -/

/-- Example input `x = [[1]]`. -/
def exX : Mat 1 1 := Matrix.of fun _ _ => 1

/-- Example target `y = [[0]]`. -/
def exY : Mat 1 1 := Matrix.of fun _ _ => 0

/-- Example weight `w1 = [[1]]`. -/
def exW1 : Mat 1 1 := Matrix.of fun _ _ => 1

/-- Example weight `w2 = [[1]]`. -/
def exW2 : Mat 1 1 := Matrix.of fun _ _ => 1

/-! ## Helper lemmas -/

lemma sumSq_nonneg {m n : ℕ} (a : Mat m n) : 0 ≤ sumSq a :=
  Finset.sum_nonneg fun _ _ => Finset.sum_nonneg fun _ _ => sq_nonneg _

lemma sumSq_eq_zero_iff {m n : ℕ} (a : Mat m n) : sumSq a = 0 ↔ a = 0 := by
  constructor
  · intro h0
    ext i j
    rw [sumSq, Finset.sum_eq_zero_iff_of_nonneg
      (fun i _ => Finset.sum_nonneg fun j _ => sq_nonneg (a i j))] at h0
    have h2 := h0 i (Finset.mem_univ i)
    rw [Finset.sum_eq_zero_iff_of_nonneg (fun j _ => sq_nonneg (a i j))] at h2
    have h3 := h2 j (Finset.mem_univ j)
    simpa using sq_eq_zero_iff.mp h3
  · intro h
    rw [h]
    simp [sumSq]

lemma run_x_eq {n din hd dout : ℕ} (t : ℕ) (s : TrainState n din hd dout) :
    (run t s).x = s.x := by
  induction t with
  | zero => rfl
  | succ t ih => rw [run, step]; exact ih

lemma run_y_eq {n din hd dout : ℕ} (t : ℕ) (s : TrainState n din hd dout) :
    (run t s).y = s.y := by
  induction t with
  | zero => rfl
  | succ t ih => rw [run, step]; exact ih

lemma run_x_val_eq {n din hd dout : ℕ} (t : ℕ) (s : TrainState n din hd dout) :
    (run t s).x_val = s.x_val := by
  induction t with
  | zero => rfl
  | succ t ih => rw [run, step]; exact ih

lemma run_y_val_eq {n din hd dout : ℕ} (t : ℕ) (s : TrainState n din hd dout) :
    (run t s).y_val = s.y_val := by
  induction t with
  | zero => rfl
  | succ t ih => rw [run, step]; exact ih

lemma run_cost_length {n din hd dout : ℕ} (t : ℕ) (s : TrainState n din hd dout) :
    (run t s).cost.length = s.cost.length + t := by
  induction t with
  | zero => rfl
  | succ t ih => rw [run, step]; simp [ih]; ring

lemma run_cost_val_length {n din hd dout : ℕ} (t : ℕ) (s : TrainState n din hd dout) :
    (run t s).cost_val.length = s.cost_val.length + t := by
  induction t with
  | zero => rfl
  | succ t ih => rw [run, step]; simp [ih]; ring

lemma run_cnt_length {n din hd dout : ℕ} (t : ℕ) (s : TrainState n din hd dout) :
    (run t s).cnt.length = s.cnt.length + t := by
  induction t with
  | zero => rfl
  | succ t ih => rw [run, step]; simp [ih]; ring

/-! ## C1 — backward pass and weight update match the reference
definition -/

/-- Reference definition from the spec: `grad_Y_pred = 2 · (Y_pred − Y)`. -/
def refGradYPred {n dout : ℕ} (ypred y : Mat n dout) : Mat n dout :=
  (2 : ℚ) • (ypred - y)

/-- Reference definition from the spec: `grad_W2 = H_reluᵗ · grad_Y_pred`. -/
def refGradW2 {n hd dout : ℕ} (hrelu : Mat n hd) (gyp : Mat n dout) :
    Mat hd dout :=
  hrelu.transpose * gyp

/-- Reference definition from the spec: `grad_H_relu = grad_Y_pred · W2ᵗ`. -/
def refGradHRelu {n hd dout : ℕ} (gyp : Mat n dout) (w2 : Mat hd dout) :
    Mat n hd :=
  gyp * w2.transpose

/-- Reference definition from the spec: `grad_H` is `grad_H_relu` with the
entries where `H` is negative zeroed. -/
def refGradH {n hd : ℕ} (hm ghr : Mat n hd) : Mat n hd :=
  Matrix.of fun i j => if hm i j < 0 then 0 else ghr i j

/-- Reference definition from the spec: `grad_W1 = Xᵗ · grad_H`. -/
def refGradW1 {n din hd : ℕ} (x : Mat n din) (gh : Mat n hd) : Mat din hd :=
  x.transpose * gh

/-- C1: every iteration of the training loop computes its gradients and
weight update exactly as the reference definition prescribes:
`grad_Y_pred = 2(Y_pred − Y)`, `grad_W2 = H_reluᵗ grad_Y_pred`,
`grad_H_relu = grad_Y_pred W2ᵗ`, `grad_H` masked where `H < 0`,
`grad_W1 = Xᵗ grad_H`, followed by `Wi ← Wi − lr · grad_Wi` with
`lr = 1e-6` independent of the iteration index `t`. -/
theorem c1_backward_and_update {n din hd dout : ℕ} (t : ℕ)
    (s : TrainState n din hd dout) :
    (step t s).w1 = s.w1 - (1 / 1000000 : ℚ) •
      refGradW1 s.x (refGradH (hPre s.x s.w1)
        (refGradHRelu (refGradYPred (predict s.x s.w1 s.w2) s.y) s.w2)) ∧
    (step t s).w2 = s.w2 - (1 / 1000000 : ℚ) •
      refGradW2 (relu (hPre s.x s.w1))
        (refGradYPred (predict s.x s.w1 s.w2) s.y) :=
  ⟨rfl, rfl⟩

/-! ## C2 — the ReLU gradient mask is strict at zero -/

/-- C2: in the backward pass, `grad_H` keeps the value of `grad_H_relu`
at every entry whose pre-activation is ≥ 0 (entries exactly 0 are not
zeroed, the mask is strictly `< 0`), and is 0 at every entry whose
pre-activation is strictly negative. -/
theorem c2_relu_mask {n din hd dout : ℕ} (x : Mat n din) (y : Mat n dout)
    (w1 : Mat din hd) (w2 : Mat hd dout) (i : Fin n) (j : Fin hd) :
    (0 ≤ hPre x w1 i j →
      grad_h x y w1 w2 i j = grad_h_relu x y w1 w2 i j) ∧
    (hPre x w1 i j < 0 → grad_h x y w1 w2 i j = 0) := by
  constructor
  · intro hge
    simp [grad_h, not_lt.mpr hge]
  · intro hlt
    simp [grad_h, hlt]

/-- Witness for C2 at the concrete instance `x = w1 = w2 = [[1]]`,
`y = [[0]]`, whose pre-activation entry is `1 ≥ 0`. -/
theorem c2_relu_mask_witness :
    0 ≤ hPre exX exW1 0 0 ∧
    grad_h exX exY exW1 exW2 0 0 = grad_h_relu exX exY exW1 exW2 0 0 :=
  ⟨by norm_num [hPre, Matrix.mul_apply, Fin.sum_univ_one, exX, exW1],
   (c2_relu_mask exX exY exW1 exW2 0 0).1
     (by norm_num [hPre, Matrix.mul_apply, Fin.sum_univ_one, exX, exW1])⟩

/-! ## C3 — the loop does not start from the raw initialisation -/

/-- C3 counterexample: with `x = [[1]]`, `y = [[0]]`, `w1 = [[1]]`,
`w2 = [[1]]`, the weight `w1` at the first entry of the training loop
differs from the initialised `w1`, because the single demonstration
step of notebook cells 3–6 already applied one gradient-descent update
before the loop. -/
theorem c3_counterexample :
    (startState exX exY exW1 exW2 exX exY).w1 ≠ exW1 := by
  intro hcontra
  have h00 := congrFun (congrFun hcontra 0) 0
  norm_num [startState, updateW1, learning_rate, grad_w1, grad_h,
    grad_h_relu, grad_y_pred, predict, relu, hPre, Matrix.mul_apply,
    Matrix.transpose_apply, Matrix.sub_apply, Matrix.smul_apply,
    Fin.sum_univ_one, exX, exY, exW1, exW2] at h00

/-- C3 (amended): the first iteration of the training loop computes its
forward pass with the weights produced by the one preliminary
forward/backward/update pass of notebook cells 3–6 applied to the
random initialisation — exactly one weight update is applied between
initialisation and the first loop iteration. -/
theorem c3_first_iteration_weights {n din hd dout : ℕ} (x : Mat n din)
    (y : Mat n dout) (w1 : Mat din hd) (w2 : Mat hd dout)
    (xv : Mat n din) (yv : Mat n dout) :
    (startState x y w1 w2 xv yv).w1 = updateW1 x y w1 w2 ∧
    (startState x y w1 w2 xv yv).w2 = updateW2 x y w1 w2 ∧
    (run 1 (startState x y w1 w2 xv yv)).cost =
      [lossOf x y (updateW1 x y w1 w2) (updateW2 x y w1 w2)] :=
  ⟨rfl, rfl, rfl⟩

/-! ## C7 — the loss is a nonnegative total squared error, zero iff
exact fit -/

/-- C7: for every predicted output and target of equal shape, the loss
`np.square(y_pred - y).sum()` — a plain sum over all entries, with no
normalisation — is ≥ 0, and is 0 exactly when `y_pred = y` entrywise. -/
theorem c7_loss_nonneg_zero_iff {n dout : ℕ} (ypred y : Mat n dout) :
    0 ≤ sumSq (ypred - y) ∧ (sumSq (ypred - y) = 0 ↔ ypred = y) := by
  refine ⟨sumSq_nonneg _, ?_⟩
  rw [sumSq_eq_zero_iff, sub_eq_zero]

/-! ## C4 — validation loss uses the not-yet-updated weights -/

/-- C4: in every one of the 500 iterations, the validation loss appended
to `cost_val` is computed by a forward pass on `(x_val, w1, w2)` with
the weights of that iteration before its update, and that iteration's
weight update is applied afterwards, producing the next weights from
the same pre-update weights. -/
theorem c4_validation_before_update {n din hd dout : ℕ} (x : Mat n din)
    (y : Mat n dout) (w1 : Mat din hd) (w2 : Mat hd dout)
    (xv : Mat n din) (yv : Mat n dout) (t : ℕ) (ht : t < niteration) :
    (run (t + 1) (startState x y w1 w2 xv yv)).cost_val =
      (run t (startState x y w1 w2 xv yv)).cost_val ++
        [lossOf xv yv (run t (startState x y w1 w2 xv yv)).w1
          (run t (startState x y w1 w2 xv yv)).w2] ∧
    (run (t + 1) (startState x y w1 w2 xv yv)).w1 =
      updateW1 x y (run t (startState x y w1 w2 xv yv)).w1
        (run t (startState x y w1 w2 xv yv)).w2 ∧
    (run (t + 1) (startState x y w1 w2 xv yv)).w2 =
      updateW2 x y (run t (startState x y w1 w2 xv yv)).w1
        (run t (startState x y w1 w2 xv yv)).w2 := by
  have hx : (run t (startState x y w1 w2 xv yv)).x = x :=
    run_x_eq t (startState x y w1 w2 xv yv)
  have hy : (run t (startState x y w1 w2 xv yv)).y = y :=
    run_y_eq t (startState x y w1 w2 xv yv)
  have hxv : (run t (startState x y w1 w2 xv yv)).x_val = xv :=
    run_x_val_eq t (startState x y w1 w2 xv yv)
  have hyv : (run t (startState x y w1 w2 xv yv)).y_val = yv :=
    run_y_val_eq t (startState x y w1 w2 xv yv)
  refine ⟨?_, ?_, ?_⟩ <;> simp only [run, step, hx, hy, hxv, hyv]

/-- Witness for C4 at iteration `t = 0` of the concrete 1×1 instance. -/
theorem c4_validation_before_update_witness :
    0 < niteration ∧
    ((run 1 (startState exX exY exW1 exW2 exX exY)).cost_val =
      (run 0 (startState exX exY exW1 exW2 exX exY)).cost_val ++
        [lossOf exX exY (run 0 (startState exX exY exW1 exW2 exX exY)).w1
          (run 0 (startState exX exY exW1 exW2 exX exY)).w2] ∧
    (run 1 (startState exX exY exW1 exW2 exX exY)).w1 =
      updateW1 exX exY (run 0 (startState exX exY exW1 exW2 exX exY)).w1
        (run 0 (startState exX exY exW1 exW2 exX exY)).w2 ∧
    (run 1 (startState exX exY exW1 exW2 exX exY)).w2 =
      updateW2 exX exY (run 0 (startState exX exY exW1 exW2 exX exY)).w1
        (run 0 (startState exX exY exW1 exW2 exX exY)).w2) :=
  ⟨by decide,
   c4_validation_before_update exX exY exW1 exW2 exX exY 0 (by decide)⟩

/-! ## C5 — validation data never influences the training trajectory -/

lemma run_val_indep {n din hd dout : ℕ} (t : ℕ)
    (s s' : TrainState n din hd dout)
    (hx : s.x = s'.x) (hy : s.y = s'.y) (hw1 : s.w1 = s'.w1)
    (hw2 : s.w2 = s'.w2) (hc : s.cost = s'.cost) :
    (run t s).x = (run t s').x ∧ (run t s).y = (run t s').y ∧
    (run t s).w1 = (run t s').w1 ∧ (run t s).w2 = (run t s').w2 ∧
    (run t s).cost = (run t s').cost := by
  induction t with
  | zero => exact ⟨hx, hy, hw1, hw2, hc⟩
  | succ t ih =>
    obtain ⟨ihx, ihy, ihw1, ihw2, ihc⟩ := ih
    refine ⟨?_, ?_, ?_, ?_, ?_⟩ <;>
      rw [run, step, run, step] <;>
      simp only [ihx, ihy, ihw1, ihw2, ihc]

/-- C5: two runs of the training loop that differ only in the validation
data `x_val, y_val` produce identical weights `w1, w2` after every
iteration and an identical training-loss history: validation data never
influences gradients or weight updates. -/
theorem c5_validation_noninterference {n din hd dout : ℕ} (x : Mat n din)
    (y : Mat n dout) (w1 : Mat din hd) (w2 : Mat hd dout)
    (xv : Mat n din) (yv : Mat n dout) (xv' : Mat n din) (yv' : Mat n dout)
    (t : ℕ) :
    (run t (startState x y w1 w2 xv yv)).w1 =
      (run t (startState x y w1 w2 xv' yv')).w1 ∧
    (run t (startState x y w1 w2 xv yv)).w2 =
      (run t (startState x y w1 w2 xv' yv')).w2 ∧
    (run t (startState x y w1 w2 xv yv)).cost =
      (run t (startState x y w1 w2 xv' yv')).cost := by
  obtain ⟨-, -, hw1, hw2, hc⟩ := run_val_indep t
    (startState x y w1 w2 xv yv) (startState x y w1 w2 xv' yv')
    rfl rfl rfl rfl rfl
  exact ⟨hw1, hw2, hc⟩

/-! ## C8 — the loop runs exactly 500 iterations -/

/-- C8: the training loop executes exactly `niteration = 500` iterations
(the recursion on the iteration count terminates, with no early
stopping), and afterwards the training-loss and validation-loss
histories each contain exactly 500 entries, one appended per
iteration. -/
theorem c8_loop_count {n din hd dout : ℕ} (x : Mat n din)
    (y : Mat n dout) (w1 : Mat din hd) (w2 : Mat hd dout)
    (xv : Mat n din) (yv : Mat n dout) :
    niteration = 500 ∧
    (program x y w1 w2 xv yv).cost.length = niteration ∧
    (program x y w1 w2 xv yv).cost_val.length = niteration := by
  refine ⟨rfl, ?_, ?_⟩
  · rw [program, run_cost_length]
    simp [startState]
  · rw [program, run_cost_val_length]
    simp [startState]

/-! ## C9 — the inputs are never modified by the loop -/

/-- C9: no iteration of the training loop modifies the training data
`x, y` or the validation data `x_val, y_val`: after any number of
iterations from any state these four fields are unchanged (only the
weights and the recorded sequences of the state are rebound by
`step`). -/
theorem c9_inputs_immutable {n din hd dout : ℕ} (t : ℕ)
    (s : TrainState n din hd dout) :
    (run t s).x = s.x ∧ (run t s).y = s.y ∧
    (run t s).x_val = s.x_val ∧ (run t s).y_val = s.y_val :=
  ⟨run_x_eq t s, run_y_eq t s, run_x_val_eq t s, run_y_val_eq t s⟩

/-! ## C10 — the recorded sequences after iteration t -/

lemma run_cnt_range {n din hd dout : ℕ} (t : ℕ) (x : Mat n din)
    (y : Mat n dout) (w1 : Mat din hd) (w2 : Mat hd dout)
    (xv : Mat n din) (yv : Mat n dout) :
    (run t (startState x y w1 w2 xv yv)).cnt = List.range t := by
  induction t with
  | zero => rfl
  | succ t ih =>
    rw [run, step, ih, List.range_succ]

/-- C10: after iteration `t` (0-indexed) of the training loop — that is,
after `t + 1` executions of the loop body — the recorded sequences
`cost`, `counter` and `cost_val` all have length `t + 1`, and `counter`
is exactly `[0, 1, ..., t]`. -/
theorem c10_history_invariant {n din hd dout : ℕ} (x : Mat n din)
    (y : Mat n dout) (w1 : Mat din hd) (w2 : Mat hd dout)
    (xv : Mat n din) (yv : Mat n dout) (t : ℕ) (ht : t < niteration) :
    (run (t + 1) (startState x y w1 w2 xv yv)).cost.length = t + 1 ∧
    (run (t + 1) (startState x y w1 w2 xv yv)).cnt.length = t + 1 ∧
    (run (t + 1) (startState x y w1 w2 xv yv)).cost_val.length = t + 1 ∧
    (run (t + 1) (startState x y w1 w2 xv yv)).cnt = List.range (t + 1) := by
  refine ⟨?_, ?_, ?_, run_cnt_range (t + 1) x y w1 w2 xv yv⟩
  · rw [run_cost_length]
    simp [startState]
  · rw [run_cnt_length]
    simp [startState]
  · rw [run_cost_val_length]
    simp [startState]

/-- Witness for C10 at iteration `t = 0` of the concrete 1×1 instance. -/
theorem c10_history_invariant_witness :
    0 < niteration ∧
    ((run 1 (startState exX exY exW1 exW2 exX exY)).cost.length = 1 ∧
    (run 1 (startState exX exY exW1 exW2 exX exY)).cnt.length = 1 ∧
    (run 1 (startState exX exY exW1 exW2 exX exY)).cost_val.length = 1 ∧
    (run 1 (startState exX exY exW1 exW2 exX exY)).cnt = List.range 1) :=
  ⟨by decide, c10_history_invariant exX exY exW1 exW2 exX exY 0 (by decide)⟩

/-! ## C6 — a sufficiently small step decreases the training loss

The claim quantifies over the learning rate: `stepLoss x y w1 w2 lr`
is the training loss after one backward pass and update with learning
rate `lr`.  On the region where no pre-activation entry changes sign,
`stepLoss` is a quartic polynomial in `lr` whose linear coefficient is
minus the squared Frobenius norm of the gradient. -/

/-- The training loss after one gradient-descent step (the backward
pass of cells 5/7 followed by the update rule with learning rate
`lr`). -/
def stepLoss {n din hd dout : ℕ} (x : Mat n din) (y : Mat n dout)
    (w1 : Mat din hd) (w2 : Mat hd dout) (lr : ℚ) : ℚ :=
  lossOf x y (w1 - lr • grad_w1 x y w1 w2) (w2 - lr • grad_w2 x y w1 w2)

/-- Indicator (0/1 valued) of the strictly positive pre-activation entries. -/
def maskS {n hd : ℕ} (hm : Mat n hd) : Mat n hd :=
  Matrix.of fun i j => if 0 < hm i j then (1 : ℚ) else 0

/-- Residual `y_pred - y` of the forward pass. -/
def rMat {n din hd dout : ℕ} (x : Mat n din) (y : Mat n dout)
    (w1 : Mat din hd) (w2 : Mat hd dout) : Mat n dout :=
  predict x w1 w2 - y

/-- Directional change of the pre-activation along the `w1` step:
`x · grad_w1`. -/
def bMat {n din hd dout : ℕ} (x : Mat n din) (y : Mat n dout)
    (w1 : Mat din hd) (w2 : Mat hd dout) : Mat n hd :=
  x * grad_w1 x y w1 w2

/-- Linear-in-`lr` coefficient of the frozen-mask prediction entries. -/
def betaMat {n din hd dout : ℕ} (x : Mat n din) (y : Mat n dout)
    (w1 : Mat din hd) (w2 : Mat hd dout) : Mat n dout :=
  Matrix.of fun i k => -∑ j, maskS (hPre x w1) i j *
    (bMat x y w1 w2 i j * w2 j k +
      hPre x w1 i j * grad_w2 x y w1 w2 j k)

/-- Quadratic-in-`lr` coefficient of the frozen-mask prediction
entries. -/
def gammaMat {n din hd dout : ℕ} (x : Mat n din) (y : Mat n dout)
    (w1 : Mat din hd) (w2 : Mat hd dout) : Mat n dout :=
  Matrix.of fun i k => ∑ j, maskS (hPre x w1) i j *
    (bMat x y w1 w2 i j * grad_w2 x y w1 w2 j k)

/-- Degree-1 coefficient of `stepLoss` as a polynomial in `lr`. -/
def coefB {n din hd dout : ℕ} (x : Mat n din) (y : Mat n dout)
    (w1 : Mat din hd) (w2 : Mat hd dout) : ℚ :=
  ∑ i, ∑ k, 2 * rMat x y w1 w2 i k * betaMat x y w1 w2 i k

/-- Degree-2 coefficient of `stepLoss` as a polynomial in `lr`. -/
def coefC {n din hd dout : ℕ} (x : Mat n din) (y : Mat n dout)
    (w1 : Mat din hd) (w2 : Mat hd dout) : ℚ :=
  ∑ i, ∑ k, (betaMat x y w1 w2 i k ^ 2 +
    2 * rMat x y w1 w2 i k * gammaMat x y w1 w2 i k)

/-- Degree-3 coefficient of `stepLoss` as a polynomial in `lr`. -/
def coefD {n din hd dout : ℕ} (x : Mat n din) (y : Mat n dout)
    (w1 : Mat din hd) (w2 : Mat hd dout) : ℚ :=
  ∑ i, ∑ k, 2 * betaMat x y w1 w2 i k * gammaMat x y w1 w2 i k

/-- Degree-4 coefficient of `stepLoss` as a polynomial in `lr`. -/
def coefE {n din hd dout : ℕ} (x : Mat n din) (y : Mat n dout)
    (w1 : Mat din hd) (w2 : Mat hd dout) : ℚ :=
  ∑ i, ∑ k, gammaMat x y w1 w2 i k ^ 2

lemma predict_apply {n din hd dout : ℕ} (x : Mat n din) (w1 : Mat din hd)
    (w2 : Mat hd dout) (i : Fin n) (k : Fin dout) :
    predict x w1 w2 i k = ∑ j, relu (hPre x w1) i j * w2 j k := by
  simp [predict, Matrix.mul_apply]

lemma grad_w2_apply {n din hd dout : ℕ} (x : Mat n din) (y : Mat n dout)
    (w1 : Mat din hd) (w2 : Mat hd dout) (j : Fin hd) (k : Fin dout) :
    grad_w2 x y w1 w2 j k =
      ∑ i, relu (hPre x w1) i j * (2 * rMat x y w1 w2 i k) := by
  simp [grad_w2, grad_y_pred, rMat, Matrix.mul_apply,
    Matrix.transpose_apply, Matrix.smul_apply, smul_eq_mul]

lemma grad_h_relu_apply {n din hd dout : ℕ} (x : Mat n din)
    (y : Mat n dout) (w1 : Mat din hd) (w2 : Mat hd dout)
    (i : Fin n) (j : Fin hd) :
    grad_h_relu x y w1 w2 i j =
      ∑ k, 2 * rMat x y w1 w2 i k * w2 j k := by
  simp [grad_h_relu, grad_y_pred, rMat, Matrix.mul_apply,
    Matrix.transpose_apply, Matrix.smul_apply, smul_eq_mul]

lemma grad_w1_apply {n din hd dout : ℕ} (x : Mat n din) (y : Mat n dout)
    (w1 : Mat din hd) (w2 : Mat hd dout) (p : Fin din) (j : Fin hd) :
    grad_w1 x y w1 w2 p j = ∑ i, x i p * grad_h x y w1 w2 i j := by
  simp [grad_w1, Matrix.mul_apply, Matrix.transpose_apply]

lemma maskS_mul_hm {n hd : ℕ} (hm : Mat n hd) (i : Fin n) (j : Fin hd) :
    maskS hm i j * hm i j = relu hm i j := by
  rcases lt_trichotomy (hm i j) 0 with hlt | heq | hgt
  · simp [maskS, relu, not_lt.mpr hlt.le, max_eq_right hlt.le,
      asymm hlt]
  · simp [maskS, relu, heq]
  · simp [maskS, relu, hgt, max_eq_left hgt.le]

lemma maskS_mul_of_ne {n hd : ℕ} (hm : Mat n hd) (i : Fin n) (j : Fin hd)
    (hne : hm i j ≠ 0) (z : ℚ) :
    maskS hm i j * z = if hm i j < 0 then 0 else z := by
  rcases lt_trichotomy (hm i j) 0 with hlt | heq | hgt
  · simp [maskS, asymm hlt, hlt]
  · exact absurd heq hne
  · simp [maskS, hgt, asymm hgt]

lemma sum3_rotate {ι κ μ M : Type*} [Fintype ι] [Fintype κ] [Fintype μ]
    [AddCommMonoid M] (f : ι → κ → μ → M) :
    ∑ i, ∑ k, ∑ j, f i k j = ∑ j, ∑ k, ∑ i, f i k j :=
  calc ∑ i, ∑ k, ∑ j, f i k j
      = ∑ i, ∑ j, ∑ k, f i k j :=
        Finset.sum_congr rfl fun _ _ => Finset.sum_comm
    _ = ∑ j, ∑ i, ∑ k, f i k j := Finset.sum_comm
    _ = ∑ j, ∑ k, ∑ i, f i k j :=
        Finset.sum_congr rfl fun _ _ => Finset.sum_comm

lemma coefB_split {n din hd dout : ℕ} (x : Mat n din) (y : Mat n dout)
    (w1 : Mat din hd) (w2 : Mat hd dout) :
    coefB x y w1 w2 =
      -((∑ i, ∑ k, ∑ j, 2 * rMat x y w1 w2 i k *
          (maskS (hPre x w1) i j * (bMat x y w1 w2 i j * w2 j k))) +
        (∑ i, ∑ k, ∑ j, 2 * rMat x y w1 w2 i k *
          (maskS (hPre x w1) i j *
            (hPre x w1 i j * grad_w2 x y w1 w2 j k)))) := by
  have hpt : ∀ i k, 2 * rMat x y w1 w2 i k * betaMat x y w1 w2 i k =
      -((∑ j, 2 * rMat x y w1 w2 i k *
          (maskS (hPre x w1) i j * (bMat x y w1 w2 i j * w2 j k))) +
        (∑ j, 2 * rMat x y w1 w2 i k *
          (maskS (hPre x w1) i j *
            (hPre x w1 i j * grad_w2 x y w1 w2 j k)))) := by
    intro i k
    simp only [betaMat, Matrix.of_apply]
    rw [← Finset.sum_add_distrib, mul_neg, Finset.mul_sum]
    congr 1
    refine Finset.sum_congr rfl fun j _ => ?_
    ring
  simp only [coefB, hpt, Finset.sum_neg_distrib, ← Finset.sum_add_distrib]

lemma sum_T2 {n din hd dout : ℕ} (x : Mat n din) (y : Mat n dout)
    (w1 : Mat din hd) (w2 : Mat hd dout) :
    (∑ i, ∑ k, ∑ j, 2 * rMat x y w1 w2 i k *
      (maskS (hPre x w1) i j * (hPre x w1 i j * grad_w2 x y w1 w2 j k))) =
    sumSq (grad_w2 x y w1 w2) := by
  have hpt : ∀ (i : Fin n) (k : Fin dout) (j : Fin hd),
      2 * rMat x y w1 w2 i k *
        (maskS (hPre x w1) i j * (hPre x w1 i j * grad_w2 x y w1 w2 j k)) =
      relu (hPre x w1) i j * (2 * rMat x y w1 w2 i k) *
        grad_w2 x y w1 w2 j k := by
    intro i k j
    rw [← maskS_mul_hm (hPre x w1) i j]
    ring
  simp only [hpt]
  rw [sum3_rotate]
  rw [sumSq]
  refine Finset.sum_congr rfl fun j _ => Finset.sum_congr rfl fun k _ => ?_
  rw [← Finset.sum_mul, ← grad_w2_apply]
  ring

lemma sum_T1 {n din hd dout : ℕ} (x : Mat n din) (y : Mat n dout)
    (w1 : Mat din hd) (w2 : Mat hd dout)
    (hb : ∀ (i : Fin n) (j : Fin hd), hPre x w1 i j ≠ 0) :
    (∑ i, ∑ k, ∑ j, 2 * rMat x y w1 w2 i k *
      (maskS (hPre x w1) i j * (bMat x y w1 w2 i j * w2 j k))) =
    sumSq (grad_w1 x y w1 w2) := by
  -- reorder so that the k-sum is innermost, then recognise grad_h_relu
  have h1 : (∑ i, ∑ k, ∑ j, 2 * rMat x y w1 w2 i k *
        (maskS (hPre x w1) i j * (bMat x y w1 w2 i j * w2 j k))) =
      ∑ i, ∑ j, bMat x y w1 w2 i j *
        (maskS (hPre x w1) i j * grad_h_relu x y w1 w2 i j) := by
    refine Finset.sum_congr rfl fun i _ => ?_
    rw [Finset.sum_comm]
    refine Finset.sum_congr rfl fun j _ => ?_
    rw [grad_h_relu_apply, Finset.mul_sum, Finset.mul_sum]
    refine Finset.sum_congr rfl fun k _ => ?_
    ring
  rw [h1]
  -- the mask turns grad_h_relu into grad_h when no pre-activation is 0
  have h2 : ∀ (i : Fin n) (j : Fin hd),
      maskS (hPre x w1) i j * grad_h_relu x y w1 w2 i j =
        grad_h x y w1 w2 i j := by
    intro i j
    rw [maskS_mul_of_ne (hPre x w1) i j (hb i j)]
    rfl
  simp only [h2]
  -- expand bMat and fold the sums into grad_w1
  have h3 : ∀ (i : Fin n) (j : Fin hd),
      bMat x y w1 w2 i j * grad_h x y w1 w2 i j =
        ∑ p, x i p * grad_w1 x y w1 w2 p j * grad_h x y w1 w2 i j := by
    intro i j
    rw [bMat, Matrix.mul_apply, Finset.sum_mul]
  simp only [h3]
  rw [sum3_rotate]
  rw [sumSq]
  refine Finset.sum_congr rfl fun p _ => Finset.sum_congr rfl fun j _ => ?_
  have h4 : (∑ i, x i p * grad_w1 x y w1 w2 p j * grad_h x y w1 w2 i j) =
      grad_w1 x y w1 w2 p j * ∑ i, x i p * grad_h x y w1 w2 i j := by
    rw [Finset.mul_sum]
    refine Finset.sum_congr rfl fun i _ => ?_
    ring
  rw [h4, ← grad_w1_apply]
  ring

lemma coefB_eq {n din hd dout : ℕ} (x : Mat n din) (y : Mat n dout)
    (w1 : Mat din hd) (w2 : Mat hd dout)
    (hb : ∀ (i : Fin n) (j : Fin hd), hPre x w1 i j ≠ 0) :
    coefB x y w1 w2 =
      -(sumSq (grad_w1 x y w1 w2) + sumSq (grad_w2 x y w1 w2)) := by
  rw [coefB_split, sum_T1 x y w1 w2 hb, sum_T2]

lemma hPre_step {n din hd dout : ℕ} (x : Mat n din) (y : Mat n dout)
    (w1 : Mat din hd) (w2 : Mat hd dout) (ε : ℚ) :
    hPre x (w1 - ε • grad_w1 x y w1 w2) =
      hPre x w1 - ε • bMat x y w1 w2 := by
  rw [hPre, hPre, bMat, Matrix.mul_sub, Matrix.mul_smul]

/-- On the sign-stability region the ReLU of the stepped pre-activation
is the frozen mask times the stepped pre-activation. -/
lemma relu_frozen {n din hd dout : ℕ} (x : Mat n din) (y : Mat n dout)
    (w1 : Mat din hd) (w2 : Mat hd dout) (ε : ℚ)
    (hb : ∀ (i : Fin n) (j : Fin hd), hPre x w1 i j ≠ 0)
    (hstab : ∀ (i : Fin n) (j : Fin hd),
      (0 < hPre x w1 i j →
        0 < hPre x w1 i j - ε * bMat x y w1 w2 i j) ∧
      (hPre x w1 i j < 0 →
        hPre x w1 i j - ε * bMat x y w1 w2 i j < 0))
    (i : Fin n) (j : Fin hd) :
    relu (hPre x w1 - ε • bMat x y w1 w2) i j =
      maskS (hPre x w1) i j *
        (hPre x w1 i j - ε * bMat x y w1 w2 i j) := by
  rcases lt_trichotomy (hPre x w1 i j) 0 with hlt | heq | hgt
  · have hst := (hstab i j).2 hlt
    simp [relu, maskS, Matrix.sub_apply, Matrix.smul_apply, smul_eq_mul,
      max_eq_right hst.le, asymm hlt]
  · exact absurd heq (hb i j)
  · have hst := (hstab i j).1 hgt
    simp [relu, maskS, Matrix.sub_apply, Matrix.smul_apply, smul_eq_mul,
      max_eq_left hst.le, hgt]

/-- On the sign-stability region each entry of the stepped residual is
a quadratic polynomial in the learning rate. -/
lemma predict_step_entry {n din hd dout : ℕ} (x : Mat n din)
    (y : Mat n dout) (w1 : Mat din hd) (w2 : Mat hd dout) (ε : ℚ)
    (hb : ∀ (i : Fin n) (j : Fin hd), hPre x w1 i j ≠ 0)
    (hstab : ∀ (i : Fin n) (j : Fin hd),
      (0 < hPre x w1 i j →
        0 < hPre x w1 i j - ε * bMat x y w1 w2 i j) ∧
      (hPre x w1 i j < 0 →
        hPre x w1 i j - ε * bMat x y w1 w2 i j < 0))
    (i : Fin n) (k : Fin dout) :
    (predict x (w1 - ε • grad_w1 x y w1 w2)
        (w2 - ε • grad_w2 x y w1 w2) - y) i k =
      rMat x y w1 w2 i k + betaMat x y w1 w2 i k * ε +
        gammaMat x y w1 w2 i k * ε ^ 2 := by
  have e1 : ∀ j : Fin hd,
      relu (hPre x (w1 - ε • grad_w1 x y w1 w2)) i j *
        (w2 - ε • grad_w2 x y w1 w2) j k =
      maskS (hPre x w1) i j * (hPre x w1 i j * w2 j k) +
        (-(maskS (hPre x w1) i j * (bMat x y w1 w2 i j * w2 j k +
          hPre x w1 i j * grad_w2 x y w1 w2 j k))) * ε +
        (maskS (hPre x w1) i j *
          (bMat x y w1 w2 i j * grad_w2 x y w1 w2 j k)) * ε ^ 2 := by
    intro j
    rw [hPre_step, relu_frozen x y w1 w2 ε hb hstab i j,
      Matrix.sub_apply, Matrix.smul_apply, smul_eq_mul]
    ring
  rw [Matrix.sub_apply, predict_apply]
  simp only [e1]
  rw [Finset.sum_add_distrib, Finset.sum_add_distrib,
    ← Finset.sum_mul, ← Finset.sum_mul]
  have e2 : (∑ j, maskS (hPre x w1) i j * (hPre x w1 i j * w2 j k)) =
      predict x w1 w2 i k := by
    rw [predict_apply]
    refine Finset.sum_congr rfl fun j _ => ?_
    rw [← maskS_mul_hm (hPre x w1) i j]
    ring
  rw [e2]
  simp only [betaMat, gammaMat, rMat, Matrix.of_apply, Matrix.sub_apply,
    Finset.sum_neg_distrib]
  ring

/-- On the sign-stability region, `stepLoss` is a quartic polynomial in
the learning rate whose constant term is the current loss. -/
lemma stepLoss_poly {n din hd dout : ℕ} (x : Mat n din) (y : Mat n dout)
    (w1 : Mat din hd) (w2 : Mat hd dout) (ε : ℚ)
    (hb : ∀ (i : Fin n) (j : Fin hd), hPre x w1 i j ≠ 0)
    (hstab : ∀ (i : Fin n) (j : Fin hd),
      (0 < hPre x w1 i j →
        0 < hPre x w1 i j - ε * bMat x y w1 w2 i j) ∧
      (hPre x w1 i j < 0 →
        hPre x w1 i j - ε * bMat x y w1 w2 i j < 0)) :
    stepLoss x y w1 w2 ε = lossOf x y w1 w2 +
      coefB x y w1 w2 * ε + coefC x y w1 w2 * ε ^ 2 +
      coefD x y w1 w2 * ε ^ 3 + coefE x y w1 w2 * ε ^ 4 := by
  have hpt : ∀ (i : Fin n) (k : Fin dout),
      ((predict x (w1 - ε • grad_w1 x y w1 w2)
          (w2 - ε • grad_w2 x y w1 w2) - y) i k) ^ 2 =
      rMat x y w1 w2 i k ^ 2 +
        (2 * rMat x y w1 w2 i k * betaMat x y w1 w2 i k) * ε +
        (betaMat x y w1 w2 i k ^ 2 +
          2 * rMat x y w1 w2 i k * gammaMat x y w1 w2 i k) * ε ^ 2 +
        (2 * betaMat x y w1 w2 i k * gammaMat x y w1 w2 i k) * ε ^ 3 +
        (gammaMat x y w1 w2 i k ^ 2) * ε ^ 4 := by
    intro i k
    rw [predict_step_entry x y w1 w2 ε hb hstab i k]
    ring
  have hstep : stepLoss x y w1 w2 ε =
      ∑ i, ∑ k, ((predict x (w1 - ε • grad_w1 x y w1 w2)
        (w2 - ε • grad_w2 x y w1 w2) - y) i k) ^ 2 := rfl
  have hloss : lossOf x y w1 w2 =
      ∑ i, ∑ k, rMat x y w1 w2 i k ^ 2 := rfl
  rw [hstep, hloss]
  simp only [hpt, Finset.sum_add_distrib, ← Finset.sum_mul]
  rw [coefB, coefC, coefD, coefE]
  simp only [Finset.sum_add_distrib]

/-- A positive radius inside which no pre-activation entry changes
sign along the descent direction. -/
lemma exists_delta {n din hd dout : ℕ} (x : Mat n din) (y : Mat n dout)
    (w1 : Mat din hd) (w2 : Mat hd dout)
    (hb : ∀ (i : Fin n) (j : Fin hd), hPre x w1 i j ≠ 0) :
    ∃ δ : ℚ, 0 < δ ∧ ∀ ε : ℚ, 0 < ε → ε < δ →
      ∀ (i : Fin n) (j : Fin hd),
        (0 < hPre x w1 i j →
          0 < hPre x w1 i j - ε * bMat x y w1 w2 i j) ∧
        (hPre x w1 i j < 0 →
          hPre x w1 i j - ε * bMat x y w1 w2 i j < 0) := by
  by_cases hne : (Finset.univ : Finset (Fin n × Fin hd)).Nonempty
  · obtain ⟨p0, -, hp0⟩ := Finset.exists_min_image Finset.univ
      (fun p => |hPre x w1 p.1 p.2| / (|bMat x y w1 w2 p.1 p.2| + 1)) hne
    refine ⟨|hPre x w1 p0.1 p0.2| / (|bMat x y w1 w2 p0.1 p0.2| + 1),
      ?_, ?_⟩
    · apply div_pos (abs_pos.mpr (hb p0.1 p0.2))
      have := abs_nonneg (bMat x y w1 w2 p0.1 p0.2)
      linarith
    · intro ε hε hεδ i j
      have hden : (0 : ℚ) < |bMat x y w1 w2 i j| + 1 := by
        have := abs_nonneg (bMat x y w1 w2 i j)
        linarith
      have hfle := hp0 (i, j) (Finset.mem_univ (i, j))
      have hkey : ε * (|bMat x y w1 w2 i j| + 1) < |hPre x w1 i j| := by
        have hlt : ε < |hPre x w1 i j| / (|bMat x y w1 w2 i j| + 1) :=
          lt_of_lt_of_le hεδ hfle
        exact (lt_div_iff hden).mp hlt
      have habs : |ε * bMat x y w1 w2 i j| < |hPre x w1 i j| := by
        rw [abs_mul, abs_of_pos hε]
        have hmono : ε * |bMat x y w1 w2 i j| ≤
            ε * (|bMat x y w1 w2 i j| + 1) := by
          have : |bMat x y w1 w2 i j| ≤ |bMat x y w1 w2 i j| + 1 := by
            linarith
          exact mul_le_mul_of_nonneg_left this hε.le
        linarith
      obtain ⟨hlo, hhi⟩ := abs_lt.mp habs
      constructor
      · intro hpos
        rw [abs_of_pos hpos] at hhi
        linarith
      · intro hneg
        rw [abs_of_neg hneg] at hlo
        linarith
  · exact ⟨1, one_pos, fun ε _ _ i j =>
      absurd ⟨(i, j), Finset.mem_univ (i, j)⟩ hne⟩

/-- A quartic with strictly negative linear coefficient dips below its
constant term at some positive argument below any prescribed bound. -/
lemma quartic_small_neg (B C D E δ : ℚ) (hB : B < 0) (hδ : 0 < δ) :
    ∃ ε : ℚ, 0 < ε ∧ ε < δ ∧
      B * ε + C * ε ^ 2 + D * ε ^ 3 + E * ε ^ 4 < 0 := by
  set M : ℚ := |C| + |D| + |E| + 1 with hM
  have hM1 : 1 ≤ M := by
    have := abs_nonneg C
    have := abs_nonneg D
    have := abs_nonneg E
    rw [hM]
    linarith
  have hM0 : 0 < M := by linarith
  set ε : ℚ := min (δ / 2) (min 1 (-B / (2 * M))) with hε
  have hε0 : 0 < ε := by
    apply lt_min (by linarith)
    apply lt_min one_pos
    apply div_pos (by linarith) (by linarith)
  have hεδ : ε < δ := lt_of_le_of_lt (min_le_left _ _) (by linarith)
  have hε1 : ε ≤ 1 :=
    le_trans (min_le_right _ _) (min_le_left _ _)
  have hεB : ε ≤ -B / (2 * M) :=
    le_trans (min_le_right _ _) (min_le_right _ _)
  refine ⟨ε, hε0, hεδ, ?_⟩
  have hsq : 0 < ε ^ 2 := by positivity
  have h1 : C * ε ^ 2 ≤ |C| * ε ^ 2 :=
    mul_le_mul_of_nonneg_right (le_abs_self C) hsq.le
  have h2 : D * ε ^ 3 ≤ |D| * ε ^ 2 := by
    have ha : D * ε ^ 3 ≤ |D| * ε ^ 3 := by
      have : 0 ≤ ε ^ 3 := by positivity
      exact mul_le_mul_of_nonneg_right (le_abs_self D) this
    have hb3 : |D| * ε ^ 3 ≤ |D| * ε ^ 2 := by
      have hpow : ε ^ 3 ≤ ε ^ 2 :=
        pow_le_pow_of_le_one hε0.le hε1 (by norm_num)
      exact mul_le_mul_of_nonneg_left hpow (abs_nonneg D)
    linarith
  have h3 : E * ε ^ 4 ≤ |E| * ε ^ 2 := by
    have ha : E * ε ^ 4 ≤ |E| * ε ^ 4 := by
      have : 0 ≤ ε ^ 4 := by positivity
      exact mul_le_mul_of_nonneg_right (le_abs_self E) this
    have hb4 : |E| * ε ^ 4 ≤ |E| * ε ^ 2 := by
      have hpow : ε ^ 4 ≤ ε ^ 2 :=
        pow_le_pow_of_le_one hε0.le hε1 (by norm_num)
      exact mul_le_mul_of_nonneg_left hpow (abs_nonneg E)
    linarith
  have hMε : M * ε ≤ -B / 2 := by
    have := mul_le_mul_of_nonneg_left hεB hM0.le
    have hrw : M * (-B / (2 * M)) = -B / 2 := by
      field_simp
      ring
    linarith [hrw ▸ this]
  have hbound : C * ε ^ 2 + D * ε ^ 3 + E * ε ^ 4 ≤ M * ε * ε := by
    have : C * ε ^ 2 + D * ε ^ 3 + E * ε ^ 4 ≤
        (|C| + |D| + |E|) * ε ^ 2 := by linarith
    nlinarith
  have hfin : M * ε * ε ≤ (-B / 2) * ε :=
    mul_le_mul_of_nonneg_right hMε hε0.le
  nlinarith

/-- C6 (amended): at every weight configuration whose computed gradient
`(grad_w1, grad_w2)` is nonzero and whose pre-activation `h = x·w1` has
no entry exactly 0, some sufficiently small positive learning rate
makes one gradient-descent step (the backward pass followed by the
update rule) strictly decrease the training loss. -/
theorem c6_descent {n din hd dout : ℕ} (x : Mat n din) (y : Mat n dout)
    (w1 : Mat din hd) (w2 : Mat hd dout)
    (hb : ∀ (i : Fin n) (j : Fin hd), hPre x w1 i j ≠ 0)
    (hnz : ¬(grad_w1 x y w1 w2 = 0 ∧ grad_w2 x y w1 w2 = 0)) :
    ∃ lr : ℚ, 0 < lr ∧ stepLoss x y w1 w2 lr < lossOf x y w1 w2 := by
  obtain ⟨δ, hδ, hstab⟩ := exists_delta x y w1 w2 hb
  have hBneg : coefB x y w1 w2 < 0 := by
    rw [coefB_eq x y w1 w2 hb]
    have h1 := sumSq_nonneg (grad_w1 x y w1 w2)
    have h2 := sumSq_nonneg (grad_w2 x y w1 w2)
    have hpos : 0 < sumSq (grad_w1 x y w1 w2) +
        sumSq (grad_w2 x y w1 w2) := by
      rcases eq_or_lt_of_le h1 with he1 | hl1
      · rcases eq_or_lt_of_le h2 with he2 | hl2
        · exact absurd ⟨(sumSq_eq_zero_iff _).mp he1.symm,
            (sumSq_eq_zero_iff _).mp he2.symm⟩ hnz
        · linarith
      · linarith
    linarith
  obtain ⟨ε, hε0, hεδ, hq⟩ := quartic_small_neg (coefB x y w1 w2)
    (coefC x y w1 w2) (coefD x y w1 w2) (coefE x y w1 w2) δ hBneg hδ
  refine ⟨ε, hε0, ?_⟩
  rw [stepLoss_poly x y w1 w2 ε hb (hstab ε hε0 hεδ)]
  linarith

lemma exPreNonzero : ∀ (i : Fin 1) (j : Fin 1), hPre exX exW1 i j ≠ 0 := by
  intro i j
  norm_num [hPre, Matrix.mul_apply, Fin.sum_univ_one, exX, exW1]

lemma exGradNonzero :
    ¬(grad_w1 exX exY exW1 exW2 = 0 ∧ grad_w2 exX exY exW1 exW2 = 0) := by
  rintro ⟨h1, -⟩
  have h00 := congrFun (congrFun h1 0) 0
  norm_num [grad_w1, grad_h, grad_h_relu, grad_y_pred, predict, relu,
    hPre, Matrix.mul_apply, Matrix.transpose_apply, Matrix.smul_apply,
    Matrix.sub_apply, Fin.sum_univ_one, exX, exY, exW1, exW2] at h00

/-- Witness for C6 at the concrete instance `x = w1 = w2 = [[1]]`,
`y = [[0]]`, where the pre-activation is `1 ≠ 0` and the computed
gradient is nonzero. -/
theorem c6_descent_witness :
    (∀ (i : Fin 1) (j : Fin 1), hPre exX exW1 i j ≠ 0) ∧
    ¬(grad_w1 exX exY exW1 exW2 = 0 ∧ grad_w2 exX exY exW1 exW2 = 0) ∧
    ∃ lr : ℚ, 0 < lr ∧
      stepLoss exX exY exW1 exW2 lr < lossOf exX exY exW1 exW2 :=
  ⟨exPreNonzero, exGradNonzero,
    c6_descent exX exY exW1 exW2 exPreNonzero exGradNonzero⟩

/-- Counterexample instance: `x = [[1]]`. -/
def cxX : Mat 1 1 := Matrix.of fun _ _ => 1

/-- Counterexample instance: `y = [[1]]`. -/
def cxY : Mat 1 1 := Matrix.of fun _ _ => 1

/-- Counterexample instance: `w1 = [[0]]`, putting the pre-activation
exactly on the ReLU boundary. -/
def cxW1 : Mat 1 1 := Matrix.of fun _ _ => 0

/-- Counterexample instance: `w2 = [[-1]]`. -/
def cxW2 : Mat 1 1 := Matrix.of fun _ _ => -1

lemma cx_stepLoss (lr : ℚ) (hlr : 0 < lr) :
    stepLoss cxX cxY cxW1 cxW2 lr = 1 := by
  simp only [stepLoss, lossOf, sumSq, predict, relu, hPre, grad_w1,
    grad_w2, grad_h, grad_h_relu, grad_y_pred, Matrix.mul_apply,
    Matrix.sub_apply, Matrix.smul_apply, Matrix.of_apply,
    Matrix.transpose_apply, smul_eq_mul, Fin.sum_univ_one,
    cxX, cxY, cxW1, cxW2]
  norm_num
  exact Or.inr hlr.le

lemma cx_lossOf : lossOf cxX cxY cxW1 cxW2 = 1 := by
  norm_num [lossOf, sumSq, predict, relu, hPre, Matrix.mul_apply,
    Matrix.sub_apply, Fin.sum_univ_one, cxX, cxY, cxW1, cxW2]

/-- C6 counterexample: at `x = [[1]]`, `y = [[1]]`, `w1 = [[0]]`,
`w2 = [[-1]]` the computed gradient is nonzero (`grad_w1 = [[2]]`,
because the zero pre-activation is not masked), yet no positive
learning rate decreases the training loss: for every `lr > 0` the
stepped pre-activation is negative, the ReLU output is 0, and the loss
stays exactly 1.  The claim as stated is therefore false. -/
theorem c6_counterexample :
    ¬(grad_w1 cxX cxY cxW1 cxW2 = 0 ∧ grad_w2 cxX cxY cxW1 cxW2 = 0) ∧
    ¬∃ lr : ℚ, 0 < lr ∧
      stepLoss cxX cxY cxW1 cxW2 lr < lossOf cxX cxY cxW1 cxW2 := by
  constructor
  · rintro ⟨h1, -⟩
    have h00 := congrFun (congrFun h1 0) 0
    norm_num [grad_w1, grad_h, grad_h_relu, grad_y_pred, predict, relu,
      hPre, Matrix.mul_apply, Matrix.transpose_apply, Matrix.smul_apply,
      Matrix.sub_apply, Fin.sum_univ_one, cxX, cxY, cxW1, cxW2] at h00
  · rintro ⟨lr, hlr, hlt⟩
    rw [cx_stepLoss lr hlr, cx_lossOf] at hlt
    exact lt_irrefl 1 hlt

end NN
